import Mathlib

/-!
# Verification of `clean_epub_css.py`

A shallow embedding of the EPUB in-place CSS cleaning program:

* `clean_css_content` — the regex substitution
  `re.sub(r'((text-indent|line-height|font-size|height|font-family|color)\s*:\s*[^;]*;|display\s*:\s*block\s*;)', '', css, flags=IGNORECASE)`
  is embedded as an executable left-to-right scanner over `List Char`
  deleting every non-overlapping match (ASCII case folding, as `Char.toLower`).
* `process_epub_inplace` — the extract / walk / repack / atomic-move
  transaction is embedded as explicit state passing over an abstract
  filesystem state (source file contents, scratch directory, pending
  temporary archive), parameterised by a fault schedule `Faults` that
  injects the failures the program handles (bad archive, extraction
  exception, per-entry read/write errors, pack error, move error,
  unexpected exceptions at step boundaries).
-/

namespace CleanEpubCss

/-! ## The CSS removal pattern

`CSS_REMOVE_PATTERN` matches either
`(text-indent|line-height|font-size|height|font-family|color)\s*:\s*[^;]*;`
or `display\s*:\s*block\s*;`, case-insensitively.  Since `\s` cannot match
`:` or `;`, and `[^;]` cannot match `;`, the regex engine's greedy matching
with backtracking is equivalent to the deterministic scanner below. -/

/-- Python `\s` (Unicode whitespace as matched by `re` on `str` patterns),
restricted to the code points CPython treats as whitespace. -/
def pyWsCodes : List Nat :=
  [0x09, 0x0A, 0x0B, 0x0C, 0x0D, 0x1C, 0x1D, 0x1E, 0x1F, 0x20, 0x85, 0xA0,
   0x1680, 0x2000, 0x2001, 0x2002, 0x2003, 0x2004, 0x2005, 0x2006, 0x2007,
   0x2008, 0x2009, 0x200A, 0x2028, 0x2029, 0x202F, 0x205F, 0x3000]

/-- Whether a character is matched by `\s`. -/
def pyWs (c : Char) : Bool := pyWsCodes.contains c.toNat

/-- Match a fixed (lower-case) word case-insensitively as a prefix of `s`,
returning the rest of the input after the word. -/
def ciStrip : List Char → List Char → Option (List Char)
  | [], s => some s
  | _ :: _, [] => none
  | p :: ps, c :: cs => if c.toLower = p then ciStrip ps cs else none

/-- Match the regex tail `\s*:\s*[^;]*;` at the head of `s`, returning the
rest of the input after the terminating `;`.  Since `;` is not whitespace,
`\s*[^;]*` matches exactly the `;`-free runs, so the tail matches iff after
optional whitespace there is a `:` and then a `;` somewhere later. -/
def afterColonSemi (s : List Char) : Option (List Char) :=
  match s.dropWhile pyWs with
  | ':' :: r =>
    match r.dropWhile (fun c => c ≠ ';') with
    | ';' :: r2 => some r2
    | _ => none
  | _ => none

/-- The property-name alternation of the pattern, in the order tried by
the regex engine. -/
def propWords : List (List Char) :=
  ["text-indent".data, "line-height".data, "font-size".data, "height".data,
   "font-family".data, "color".data]

/-- Match `(w1|w2|...)\s*:\s*[^;]*;` at the head of `s`: try each word in
order; on failure of the tail, backtrack to the next alternative. -/
def matchPropAlt : List (List Char) → List Char → Option (List Char)
  | [], _ => none
  | w :: ws, s =>
    match ciStrip w s with
    | some r =>
      match afterColonSemi r with
      | some out => some out
      | none => matchPropAlt ws s
    | none => matchPropAlt ws s

/-- Match `display\s*:\s*block\s*;` at the head of `s`. -/
def matchDisplayBlock (s : List Char) : Option (List Char) :=
  match ciStrip "display".data s with
  | none => none
  | some r1 =>
    match r1.dropWhile pyWs with
    | ':' :: r2 =>
      match ciStrip "block".data (r2.dropWhile pyWs) with
      | none => none
      | some r3 =>
        match r3.dropWhile pyWs with
        | ';' :: r4 => some r4
        | _ => none
    | _ => none

/-- Match the whole pattern at the head of `s` (first alternative first,
as the regex engine does). -/
def matchAt (s : List Char) : Option (List Char) :=
  match matchPropAlt propWords s with
  | some r => some r
  | none => matchDisplayBlock s

/-! ## `re.sub(pattern, '', s)`

`re.sub` scans the subject left to right; at each position it tries the
pattern, and on a match deletes it (replacement `''`) and resumes after the
match (non-overlapping); otherwise it keeps the character and moves one
position right.  Every match of this pattern consumes at least one
character, so the scan is embedded with a fuel argument (the fuel never
runs out when it starts at the subject's length, see `subAll_cons`). -/

/-- The substitution scan, fuelled.  `subAllF fuel s` deletes every
non-overlapping match of the pattern from `s`, provided `s.length ≤ fuel`. -/
def subAllF : Nat → List Char → List Char
  | _, [] => []
  | 0, s => s
  | fuel + 1, c :: cs =>
    match matchAt (c :: cs) with
    | some r => subAllF fuel r
    | none => c :: subAllF fuel cs

/-- Delete every non-overlapping match of `CSS_REMOVE_PATTERN` from `s`,
scanning left to right. -/
def subAll (s : List Char) : List Char := subAllF s.length s

/-- `clean_css_content`: remove the specified styles from CSS content via
the regex substitution (`CSS_REMOVE_PATTERN.sub('', css_content)`). -/
def clean_css_content (css_content : String) : String :=
  ⟨subAll css_content.data⟩

/-- Whether the pattern matches anywhere in `s` (at any start position). -/
def hasMatchL : List Char → Bool
  | [] => false
  | c :: cs => (matchAt (c :: cs)).isSome || hasMatchL cs

/-- Whether `CSS_REMOVE_PATTERN` matches anywhere in the string. -/
def hasMatch (s : String) : Bool := hasMatchL s.data

/-! ## The container data model

A ZIP archive is a sequence of entries, each a relative path (directory
components plus file name), its content, and its compression method.  The
bytes of a file on disk are either a well-formed archive (determined by its
entry sequence) or an arbitrary non-archive blob (on which `ZipFile`
raises `BadZipFile`). -/

/-- Compression method of an archive entry (`ZIP_STORED` / `ZIP_DEFLATED`). -/
inductive Compression
  | stored
  | deflated
deriving DecidableEq, Repr

/-- One entry of a ZIP archive. -/
structure ZipEntry where
  dirs : List String
  name : String
  data : String
  comp : Compression
deriving DecidableEq, Repr

/-- A regular file in the extracted scratch tree: its path relative to the
scratch root (directory components plus file name) and its content. -/
structure FileNode where
  dirs : List String
  name : String
  content : String
deriving DecidableEq, Repr

/-- The relative path of an archive entry. -/
def ZipEntry.path (e : ZipEntry) : List String := e.dirs ++ [e.name]

/-- The path of a scratch-tree file relative to the scratch root. -/
def FileNode.path (n : FileNode) : List String := n.dirs ++ [n.name]

/-- Contents of a file on disk: a structurally valid ZIP archive, or a blob
that is not a valid archive. -/
inductive Bytes
  | zip (entries : List ZipEntry)
  | raw (blob : List Nat)
deriving DecidableEq, Repr

/-- Writing one extracted entry into the scratch tree: `extractall`
overwrites an already-materialized file at the same relative path,
otherwise creates a new one. -/
def upsert (acc : List FileNode) (n : FileNode) : List FileNode :=
  if acc.any (fun m => m.path = n.path) then
    acc.map (fun m => if m.path = n.path then n else m)
  else acc ++ [n]

/-- `zip_ref.extractall(temp_dir)`: materialize every entry under the
scratch root, preserving its relative path (decompression is transparent:
the file's content is the entry's data). -/
def extractTree (es : List ZipEntry) : List FileNode :=
  es.foldl (fun acc e => upsert acc ⟨e.dirs, e.name, e.data⟩) []

/-! ## The walker (step 3 of `process_epub_inplace`)

`os.walk` visits every regular file of the scratch tree in a deterministic
order; the embedding uses the scratch tree's list order for both this walk
and the repacking walk (the two `os.walk` calls traverse the same tree in
the same order).  Each file is processed independently: the loop state is
only the two flags `css_files_found` and `modified`, each a disjunction
over the files. -/

/-- `file.lower().endswith('.css')` (ASCII lowering, as `str.lower` acts on
ASCII names). -/
def isCssName (name : String) : Bool :=
  List.isSuffixOf ".css".data (name.data.map Char.toLower)

/-- The fault schedule: which of the failures handled by
`process_epub_inplace` occur during a run.  Read/write faults are per
scratch-tree path; `packErr` is an exception raised while repacking (after
some number of entries were already written); the `unexpected*` flags are
exceptions raised at a step boundary, caught only by the outer generic
handler. -/
structure Faults where
  extractErr : Bool
  readErr : List String → Bool
  writeErr : List String → Bool
  packErr : Option Nat
  moveErr : Bool
  unexpectedAfterExtract : Bool
  unexpectedAfterPack : Bool

/-- The fault-free schedule. -/
def noFaults : Faults :=
  ⟨false, fun _ => false, fun _ => false, none, false, false, false⟩

/-- Processing of one scratch-tree file by the walker loop: non-`.css`
files are untouched; a read error skips the file; the transform is applied
and the file rewritten only when the cleaned content differs; a write
error leaves the file unchanged. -/
def processNode (tf : String → String) (f : Faults) (n : FileNode) : FileNode :=
  if isCssName n.name then
    if f.readErr n.path then n
    else if tf n.content != n.content then
      if f.writeErr n.path then n
      else { n with content := tf n.content }
    else n
  else n

/-- The scratch tree after the walker loop. -/
def walkTree (tf : String → String) (f : Faults) (t : List FileNode) : List FileNode :=
  t.map (processNode tf f)

/-- `css_files_found` after the loop: some file's name matched the
predicate. -/
def cssFound (t : List FileNode) : Bool := t.any (fun n => isCssName n.name)

/-- `modified` after the loop: some matched file was read successfully,
its cleaned content differed, and the write succeeded. -/
def anyModified (tf : String → String) (f : Faults) (t : List FileNode) : Bool :=
  t.any (fun n => isCssName n.name && !f.readErr n.path
    && (tf n.content != n.content) && !f.writeErr n.path)

/-- The aggregate result of the walker loop: the (possibly rewritten)
scratch tree and the two flags `css_files_found` and `modified`. -/
structure WalkResult where
  tree : List FileNode
  found : Bool
  modified : Bool
deriving DecidableEq, Repr

/-- The walker loop over the whole scratch tree. -/
def walk (tf : String → String) (f : Faults) (t : List FileNode) : WalkResult :=
  ⟨walkTree tf f t, cssFound t, anyModified tf f t⟩

/-- Ghost predicate (not computed by the program): the walk over `n`
actually hit a read or write error. -/
def entryFailed (tf : String → String) (f : Faults) (n : FileNode) : Bool :=
  isCssName n.name &&
    (f.readErr n.path ||
      (!f.readErr n.path && (tf n.content != n.content) && f.writeErr n.path))

/-- Ghost predicate: some entry's read or write failed during the walk. -/
def anyEntryFailure (tf : String → String) (f : Faults) (t : List FileNode) : Bool :=
  t.any (entryFailed tf f)

/-! ## Repacking (steps 4–5) -/

/-- Whether a scratch-tree file is the reserved root `mimetype` file. -/
def isRootMimetype (n : FileNode) : Bool :=
  n.dirs = [] && n.name = "mimetype"

/-- Repack the scratch tree into a fresh archive: if a root `mimetype`
file exists it is written first with `ZIP_STORED`; the walk then writes
every remaining regular file (the root `mimetype` is removed from the root
directory listing) under its path relative to the scratch root, with the
archive's default `ZIP_DEFLATED` compression. -/
def packEntries (t : List FileNode) : List ZipEntry :=
  (match t.find? isRootMimetype with
   | some m => [⟨[], "mimetype", m.content, Compression.stored⟩]
   | none => []) ++
  (t.filter (fun n => !isRootMimetype n)).map
    (fun n => ⟨n.dirs, n.name, n.content, Compression.deflated⟩)

/-! ## The transaction (`process_epub_inplace`) -/

/-- Observable state when `process_epub_inplace` returns: the returned
boolean, the bytes at the source path, whether the scratch directory and
the temporary output archive still exist on disk, and (ghost) whether any
entries were extracted. -/
structure RunResult where
  ok : Bool
  source : Bytes
  scratch : Option (List FileNode)
  pending : Option (List ZipEntry)
  extracted : Bool
deriving DecidableEq, Repr

/-- The body of the `try` in `process_epub_inplace`, up to but excluding
the `finally` block: every `return` (including the ones inside the
specific and generic `except` handlers, which delete the temporary output
archive themselves) is one constructor application.  The scratch directory
(`tempfile.mkdtemp()`) exists in every outcome; it is the `finally`
block's job to remove it. -/
def runBody (tf : String → String) (f : Faults) (src : Bytes) : RunResult :=
  match src with
  | Bytes.raw _ =>
    -- `zipfile.BadZipFile` on open: skip the file, nothing extracted.
    ⟨false, src, some [], none, false⟩
  | Bytes.zip es =>
    if f.extractErr then
      -- generic exception while extracting
      ⟨false, src, some [], none, false⟩
    else
      let t0 := extractTree es
      if f.unexpectedAfterExtract then
        -- unexpected exception, caught by the outer handler (no pending yet)
        ⟨false, src, some t0, none, true⟩
      else
        let w := walk tf f t0
        if !w.found then
          -- no CSS files: success without modification
          ⟨true, src, some w.tree, none, true⟩
        else if !w.modified then
          -- nothing needed modification: success without modification
          ⟨true, src, some w.tree, none, true⟩
        else
          if (f.packErr).isSome then
            -- exception while repacking: the handler deletes the partial
            -- temporary archive and returns failure
            ⟨false, src, some w.tree, none, true⟩
          else
            let packed := packEntries w.tree
            if f.unexpectedAfterPack then
              -- unexpected exception after repacking: the outer handler
              -- deletes the temporary archive
              ⟨false, src, some w.tree, none, true⟩
            else if f.moveErr then
              -- `shutil.move` failed: the source is intact (the rename is
              -- atomic), the handler deletes the temporary archive
              ⟨false, src, some w.tree, none, true⟩
            else
              -- commit: the temporary archive is renamed onto the source
              -- path, so it no longer exists under its temporary name
              ⟨true, Bytes.zip packed, some w.tree, none, true⟩

/-- The `finally` block: remove the scratch directory, and remove the
temporary output archive if it still exists under its temporary name. -/
def finallyCleanup (r : RunResult) : RunResult :=
  { r with scratch := none, pending := none }

/-- `process_epub_inplace`, parameterised by the content transform `tf`
(the program instantiates it with `clean_css_content`) and a fault
schedule. -/
def process_epub_inplace (tf : String → String) (f : Faults) (src : Bytes) :
    RunResult :=
  finallyCleanup (runBody tf f src)

/-- A fault schedule in which reading the scratch file `a.css` fails and
nothing else does. -/
def readErrACss : Faults :=
  { noFaults with readErr := fun p => p == ["a.css"] }

/-- A fault schedule in which repacking fails immediately. -/
def packErrAtOnce : Faults := { noFaults with packErr := some 0 }

/-- A small sample archive: a stylesheet under `style/` and a root
`mimetype` entry. -/
def sampleArchive : List ZipEntry :=
  [⟨["style"], "a.css", "color:red;", Compression.deflated⟩,
   ⟨[], "mimetype", "application/epub+zip", Compression.stored⟩]

/-! ## Lemmas about the substitution scan -/

theorem ciStrip_length : ∀ (w s r : List Char), ciStrip w s = some r →
    r.length + w.length = s.length := by
  intro w
  induction w with
  | nil => intro s r h; simp [ciStrip] at h; simp [h]
  | cons p ps ih =>
    intro s r h
    cases s with
    | nil => simp [ciStrip] at h
    | cons c cs =>
      simp only [ciStrip] at h
      split at h
      · have := ih cs r h
        simp [List.length_cons]
        omega
      · exact absurd h (by simp)

theorem length_dropWhile_le (p : Char → Bool) (s : List Char) :
    (s.dropWhile p).length ≤ s.length := by
  induction s with
  | nil => simp
  | cons c cs ih =>
    simp only [List.dropWhile]
    split
    · exact Nat.le_succ_of_le ih
    · exact Nat.le_refl _

theorem afterColonSemi_length (s r : List Char) (h : afterColonSemi s = some r) :
    r.length < s.length := by
  unfold afterColonSemi at h
  split at h
  case _ r1 heq =>
    split at h
    case _ r2 heq2 =>
      have h1 : (':' :: r1).length ≤ s.length := heq ▸ length_dropWhile_le _ s
      have h2 : (';' :: r2).length ≤ r1.length := heq2 ▸ length_dropWhile_le _ r1
      simp only [List.length_cons] at h1 h2
      cases h
      omega
    case _ => exact absurd h (by simp)
  case _ => exact absurd h (by simp)

theorem matchPropAlt_length : ∀ (ws : List (List Char)) (s r : List Char),
    matchPropAlt ws s = some r → r.length < s.length := by
  intro ws
  induction ws with
  | nil => intro s r h; simp [matchPropAlt] at h
  | cons w ws ih =>
    intro s r h
    simp only [matchPropAlt] at h
    split at h
    case _ r1 heq =>
      split at h
      case _ out heq2 =>
        cases h
        have h1 := ciStrip_length w s r1 heq
        have h2 := afterColonSemi_length r1 r heq2
        omega
      case _ => exact ih s r h
    case _ => exact ih s r h

theorem matchDisplayBlock_length (s r : List Char)
    (h : matchDisplayBlock s = some r) : r.length < s.length := by
  unfold matchDisplayBlock at h
  split at h
  case _ => exact absurd h (by simp)
  case _ r1 heq1 =>
    split at h
    case _ r2 heq2 =>
      split at h
      case _ => exact absurd h (by simp)
      case _ r3 heq3 =>
        split at h
        case _ r4 heq4 =>
          cases h
          have h1 := ciStrip_length _ s r1 heq1
          have h2 : (':' :: r2).length ≤ r1.length := heq2 ▸ length_dropWhile_le _ r1
          have h3a : (r2.dropWhile pyWs).length ≤ r2.length := length_dropWhile_le _ r2
          have h3 := ciStrip_length _ (r2.dropWhile pyWs) r3 heq3
          have h4 : (';' :: r).length ≤ r3.length := heq4 ▸ length_dropWhile_le _ r3
          simp only [List.length_cons] at h2 h4
          simp only [String.data] at h1 h3
          omega
        case _ => exact absurd h (by simp)
    case _ => exact absurd h (by simp)

theorem matchAt_length (s r : List Char) (h : matchAt s = some r) :
    r.length < s.length := by
  unfold matchAt at h
  split at h
  case _ r1 heq => cases h; exact matchPropAlt_length _ s r heq
  case _ => exact matchDisplayBlock_length s r h

/-- The result of the fuelled scan does not depend on the fuel, as long as
the fuel covers the subject's length. -/
theorem subAllF_congr : ∀ (a b : Nat) (s : List Char),
    s.length ≤ a → s.length ≤ b → subAllF a s = subAllF b s := by
  intro a
  induction a with
  | zero =>
    intro b s ha _
    have : s = [] := List.length_eq_zero.mp (Nat.le_zero.mp ha)
    subst this
    cases b <;> rfl
  | succ a ih =>
    intro b s ha hb
    cases s with
    | nil => cases b <;> rfl
    | cons c cs =>
      cases b with
      | zero => simp at hb
      | succ b =>
        simp only [subAllF]
        split
        case _ r heq =>
          have hr := matchAt_length _ _ heq
          simp only [List.length_cons] at ha hb hr
          exact ih b r (by omega) (by omega)
        case _ =>
          simp only [List.length_cons] at ha hb
          rw [ih b cs (by omega) (by omega)]

theorem subAll_nil : subAll [] = [] := rfl

/-- The characteristic recursion of the substitution scan. -/
theorem subAll_cons (c : Char) (cs : List Char) :
    subAll (c :: cs) =
      match matchAt (c :: cs) with
      | some r => subAll r
      | none => c :: subAll cs := by
  show subAllF (c :: cs).length (c :: cs) = _
  simp only [List.length_cons, subAllF]
  split
  case _ r heq =>
    have hr := matchAt_length _ _ heq
    simp only [List.length_cons] at hr
    exact subAllF_congr _ _ r (by omega) (Nat.le_refl _)
  case _ => rfl

theorem subAll_length_le : ∀ (s : List Char), (subAll s).length ≤ s.length := by
  have key : ∀ (n : Nat) (s : List Char), s.length ≤ n →
      (subAll s).length ≤ s.length := by
    intro n
    induction n with
    | zero =>
      intro s h
      have : s = [] := List.length_eq_zero.mp (Nat.le_zero.mp h)
      subst this; simp [subAll_nil]
    | succ n ih =>
      intro s h
      cases s with
      | nil => simp [subAll_nil]
      | cons c cs =>
        rw [subAll_cons]
        simp only [List.length_cons] at h
        split
        case _ r heq =>
          have hr := matchAt_length _ _ heq
          simp only [List.length_cons] at hr
          have := ih r (by omega)
          simp only [List.length_cons]
          omega
        case _ =>
          have := ih cs (by omega)
          simp only [List.length_cons]
          omega
  intro s; exact key s.length s (Nat.le_refl _)

theorem subAll_of_no_match : ∀ (s : List Char), hasMatchL s = false →
    subAll s = s := by
  intro s
  induction s with
  | nil => intro _; rfl
  | cons c cs ih =>
    intro h
    simp only [hasMatchL, Bool.or_eq_false_iff] at h
    rw [subAll_cons]
    split
    case _ r heq => rw [heq] at h; simp at h
    case _ => rw [ih h.2]

theorem subAll_length_lt : ∀ (s : List Char), hasMatchL s = true →
    (subAll s).length < s.length := by
  have key : ∀ (n : Nat) (s : List Char), s.length ≤ n → hasMatchL s = true →
      (subAll s).length < s.length := by
    intro n
    induction n with
    | zero =>
      intro s h hm
      have : s = [] := List.length_eq_zero.mp (Nat.le_zero.mp h)
      subst this; simp [hasMatchL] at hm
    | succ n ih =>
      intro s h hm
      cases s with
      | nil => simp [hasMatchL] at hm
      | cons c cs =>
        rw [subAll_cons]
        simp only [List.length_cons] at h
        split
        case _ r heq =>
          have hr := matchAt_length _ _ heq
          simp only [List.length_cons] at hr
          have := subAll_length_le r
          simp only [List.length_cons]
          omega
        case _ heq =>
          simp only [hasMatchL, heq, Option.isSome_none, Bool.false_or] at hm
          have := ih cs (by omega) hm
          simp only [List.length_cons]
          omega
  intro s; exact key s.length s (Nat.le_refl _)

/-! ## Lemmas about the transaction -/

theorem band_eq_true {a b : Bool} (h : (a && b) = true) :
    a = true ∧ b = true :=
  Bool.and_eq_true a b ▸ h

theorem runBody_source_of_not_ok (tf : String → String) (f : Faults) (src : Bytes)
    (h : (runBody tf f src).ok = false) : (runBody tf f src).source = src := by
  cases src with
  | raw b => rfl
  | zip es =>
    simp only [runBody] at h ⊢
    split_ifs at h ⊢ <;> simp_all

/-! ## The claims -/

/-- **C1.** The source container is mutated only by the atomic move step:
whenever `process_epub_inplace` fails — bad archive, extraction error,
unexpected exception, pack error, or move error — the bytes at the source
path are byte-identical to their pre-operation value. -/
theorem source_unchanged_on_failure (tf : String → String) (f : Faults)
    (src : Bytes) (h : (process_epub_inplace tf f src).ok = false) :
    (process_epub_inplace tf f src).source = src :=
  runBody_source_of_not_ok tf f src h

theorem source_unchanged_on_failure_witness :
    (process_epub_inplace clean_css_content noFaults (Bytes.raw [0])).ok = false ∧
    (process_epub_inplace clean_css_content noFaults (Bytes.raw [0])).source =
      Bytes.raw [0] :=
  ⟨rfl, source_unchanged_on_failure clean_css_content noFaults (Bytes.raw [0]) rfl⟩

/-- **C2.** On every exit path of `process_epub_inplace` — success,
no-change success, validation failure, pack failure, move failure,
unexpected exception — the scratch extraction directory is removed and the
temporary output archive is removed unless the commit move consumed it:
no orphan temporary file or directory persists after the call returns. -/
theorem no_orphan_temporaries (tf : String → String) (f : Faults) (src : Bytes) :
    (process_epub_inplace tf f src).scratch = none ∧
    (process_epub_inplace tf f src).pending = none :=
  ⟨rfl, rfl⟩

/-- **C4.** On an input that is not a structurally valid ZIP archive,
`process_epub_inplace` returns failure, extracts nothing, leaves the source
bytes unchanged, and leaves no temporary files behind. -/
theorem not_an_archive_aborts (tf : String → String) (f : Faults)
    (blob : List Nat) :
    process_epub_inplace tf f (Bytes.raw blob) =
      ⟨false, Bytes.raw blob, none, none, false⟩ := rfl

/-- **C5.** If no entry matches the `.css` predicate, or no matched entry's
content changes under the transform (in particular when every matched
entry is unchanged), the transaction succeeds without packing or
committing and the source container is byte-identical to its input. -/
theorem noop_preserves_source (tf : String → String) (f : Faults)
    (es : List ZipEntry)
    (hx : f.extractErr = false) (hu : f.unexpectedAfterExtract = false)
    (h : cssFound (extractTree es) = false ∨
         anyModified tf f (extractTree es) = false) :
    (process_epub_inplace tf f (Bytes.zip es)).ok = true ∧
    (process_epub_inplace tf f (Bytes.zip es)).source = Bytes.zip es := by
  simp only [process_epub_inplace, finallyCleanup, runBody, hx, hu, walk,
    Bool.false_eq_true, if_false]
  rcases h with h | h
  · simp [h]
  · by_cases hf : cssFound (extractTree es) <;> simp [hf, h]

theorem noop_preserves_source_witness :
    (process_epub_inplace clean_css_content noFaults (Bytes.zip [])).ok = true ∧
    (process_epub_inplace clean_css_content noFaults (Bytes.zip [])).source =
      Bytes.zip [] :=
  noop_preserves_source clean_css_content noFaults [] rfl rfl (Or.inl rfl)

/-- **C6.** If a write failure occurs while repacking the scratch tree into
the temporary output archive, the partially written temporary output is
deleted, the operation fails, no partial output file remains, and the
source file is untouched. -/
theorem pack_error_discards_output (tf : String → String) (f : Faults)
    (es : List ZipEntry)
    (hx : f.extractErr = false) (hu : f.unexpectedAfterExtract = false)
    (hp : (f.packErr).isSome = true)
    (hf : cssFound (extractTree es) = true)
    (hm : anyModified tf f (extractTree es) = true) :
    process_epub_inplace tf f (Bytes.zip es) =
      ⟨false, Bytes.zip es, none, none, true⟩ := by
  simp [process_epub_inplace, finallyCleanup, runBody, hx, hu, hf, hm, hp, walk]

theorem pack_error_discards_output_witness :
    process_epub_inplace clean_css_content packErrAtOnce
        (Bytes.zip [⟨[], "a.css", "color:red;", Compression.deflated⟩]) =
      ⟨false, Bytes.zip [⟨[], "a.css", "color:red;", Compression.deflated⟩],
       none, none, true⟩ :=
  pack_error_discards_output clean_css_content packErrAtOnce
    [⟨[], "a.css", "color:red;", Compression.deflated⟩]
    rfl rfl rfl (by decide) (by decide)

/-- **C7 (amended).** A read or write failure on an individual entry is
non-fatal: the failed entry is left as it was and the walker processes
every other entry exactly as it would have, the aggregate flags being the
disjunction over the remaining entries. -/
theorem entry_failure_nonfatal (tf : String → String) (f : Faults)
    (t1 : List FileNode) (n : FileNode) (t2 : List FileNode)
    (h : entryFailed tf f n = true) :
    walk tf f (t1 ++ n :: t2) =
      ⟨walkTree tf f t1 ++ n :: walkTree tf f t2, true,
       anyModified tf f t1 || anyModified tf f t2⟩ := by
  have hcss : isCssName n.name = true := by
    unfold entryFailed at h
    exact (band_eq_true h).1
  have hpn : processNode tf f n = n := by
    unfold entryFailed at h
    unfold processNode
    cases hr : f.readErr n.path with
    | true => simp [hcss, hr]
    | false =>
      have h2 := (band_eq_true h).2
      simp only [hr, Bool.false_or, Bool.not_false, Bool.true_and,
        Bool.and_eq_true] at h2
      simp [hcss, hr, h2.1, h2.2]
  have hcontrib : (!f.readErr n.path && (tf n.content != n.content)
      && !f.writeErr n.path) = false := by
    unfold entryFailed at h
    cases hr : f.readErr n.path with
    | true => simp [hr]
    | false =>
      have h2 := (band_eq_true h).2
      simp only [hr, Bool.false_or, Bool.not_false, Bool.true_and,
        Bool.and_eq_true] at h2
      simp [h2.2]
  simp only [walk, walkTree, cssFound, anyModified, List.map_append,
    List.map_cons, List.any_append, List.any_cons, hpn, hcss,
    Bool.true_and, Bool.true_or, Bool.or_true, hcontrib, Bool.false_or]

theorem entry_failure_nonfatal_witness :
    entryFailed clean_css_content readErrACss ⟨[], "a.css", "x"⟩ = true ∧
    walk clean_css_content readErrACss
        [⟨[], "a.css", "x"⟩, ⟨[], "b.css", "color:red;"⟩] =
      ⟨walkTree clean_css_content readErrACss [] ++ ⟨[], "a.css", "x"⟩ ::
         walkTree clean_css_content readErrACss [⟨[], "b.css", "color:red;"⟩],
       true,
       anyModified clean_css_content readErrACss [] ||
         anyModified clean_css_content readErrACss
           [⟨[], "b.css", "color:red;"⟩]⟩ :=
  ⟨by decide,
   entry_failure_nonfatal clean_css_content readErrACss []
     ⟨[], "a.css", "x"⟩ [⟨[], "b.css", "color:red;"⟩] (by decide)⟩

/-- **C7 (counterexample).** The aggregate result of the walk does *not*
record whether a per-entry failure occurred: a run in which reading
`a.css` fails and a fault-free run produce identical aggregate results
(tree, `css_files_found`, `modified`), yet a failure occurred in one and
not in the other. -/
theorem walker_does_not_record_failures :
    ¬ (∀ (f g : Faults) (t : List FileNode),
        walk clean_css_content f t = walk clean_css_content g t →
        anyEntryFailure clean_css_content f t =
          anyEntryFailure clean_css_content g t) := by
  intro hgen
  have h := hgen readErrACss noFaults [⟨[], "a.css", "x"⟩] (by decide)
  have h2 : anyEntryFailure clean_css_content readErrACss
      [⟨[], "a.css", "x"⟩] = true := by decide
  have h3 : anyEntryFailure clean_css_content noFaults
      [⟨[], "a.css", "x"⟩] = false := by decide
  rw [h2, h3] at h
  exact absurd h (by decide)

/-! ## Path preservation through extraction, walking and repacking -/

theorem isRootMimetype_iff (n : FileNode) :
    isRootMimetype n = true ↔ FileNode.path n = ["mimetype"] := by
  unfold isRootMimetype FileNode.path
  cases hd : n.dirs with
  | nil => simp
  | cons d ds => simp

theorem processNode_dirs (tf : String → String) (f : Faults) (n : FileNode) :
    (processNode tf f n).dirs = n.dirs := by
  unfold processNode; split_ifs <;> rfl

theorem processNode_name (tf : String → String) (f : Faults) (n : FileNode) :
    (processNode tf f n).name = n.name := by
  unfold processNode; split_ifs <;> rfl

theorem processNode_path (tf : String → String) (f : Faults) (n : FileNode) :
    (processNode tf f n).path = n.path := by
  unfold FileNode.path
  rw [processNode_dirs, processNode_name]

theorem walkTree_map_path (tf : String → String) (f : Faults)
    (t : List FileNode) :
    (walkTree tf f t).map FileNode.path = t.map FileNode.path := by
  unfold walkTree
  induction t with
  | nil => rfl
  | cons n t ih => simp [ih, processNode_path]

theorem walkTree_map_name (tf : String → String) (f : Faults)
    (t : List FileNode) :
    (walkTree tf f t).map FileNode.name = t.map FileNode.name := by
  unfold walkTree
  induction t with
  | nil => rfl
  | cons n t ih => simp [ih, processNode_name]

theorem mem_paths_upsert (acc : List FileNode) (n : FileNode) (p : List String) :
    p ∈ (upsert acc n).map FileNode.path ↔
      p ∈ acc.map FileNode.path ∨ p = n.path := by
  unfold upsert
  have hpath : ∀ m : FileNode,
      FileNode.path (if m.path = n.path then n else m) = m.path := by
    intro m
    split_ifs with h
    · exact h.symm
    · rfl
  by_cases hc : acc.any (fun m => m.path = n.path)
  · rw [if_pos hc]
    have hmem : n.path ∈ acc.map FileNode.path := by
      obtain ⟨m, hm, hmp⟩ := List.any_eq_true.mp hc
      exact List.mem_map.mpr ⟨m, hm, of_decide_eq_true hmp⟩
    rw [List.map_map]
    have : (FileNode.path ∘ fun m => if m.path = n.path then n else m) =
        FileNode.path := by
      funext m; exact hpath m
    rw [this]
    constructor
    · exact Or.inl
    · rintro (h | rfl)
      · exact h
      · exact hmem
  · rw [if_neg hc]
    simp

theorem mem_paths_extract_foldl :
    ∀ (es : List ZipEntry) (acc : List FileNode) (p : List String),
      p ∈ (es.foldl (fun a e => upsert a ⟨e.dirs, e.name, e.data⟩) acc).map
            FileNode.path ↔
        p ∈ acc.map FileNode.path ∨ ∃ e ∈ es, ZipEntry.path e = p := by
  intro es
  induction es with
  | nil => intro acc p; simp
  | cons e es ih =>
    intro acc p
    rw [List.foldl_cons, ih, mem_paths_upsert]
    have : FileNode.path ⟨e.dirs, e.name, e.data⟩ = ZipEntry.path e := rfl
    rw [this]
    constructor
    · rintro ((h | h) | h)
      · exact Or.inl h
      · exact Or.inr ⟨e, List.mem_cons_self e es, h.symm⟩
      · obtain ⟨e2, he2, hp⟩ := h
        exact Or.inr ⟨e2, List.mem_cons_of_mem e he2, hp⟩
    · rintro (h | ⟨e2, he2, hp⟩)
      · exact Or.inl (Or.inl h)
      · rcases List.mem_cons.mp he2 with rfl | hmem
        · exact Or.inl (Or.inr hp.symm)
        · exact Or.inr ⟨e2, hmem, hp⟩

theorem mem_paths_extractTree (es : List ZipEntry) (p : List String) :
    p ∈ (extractTree es).map FileNode.path ↔ ∃ e ∈ es, ZipEntry.path e = p := by
  unfold extractTree
  rw [mem_paths_extract_foldl]
  simp

theorem mem_paths_packEntries (t : List FileNode) (p : List String) :
    p ∈ (packEntries t).map ZipEntry.path ↔ p ∈ t.map FileNode.path := by
  unfold packEntries
  cases hfind : t.find? isRootMimetype with
  | some m =>
    have hmem : m ∈ t := List.mem_of_find?_eq_some hfind
    have hroot : isRootMimetype m = true := List.find?_some hfind
    have hm : m.path = ["mimetype"] := (isRootMimetype_iff m).mp hroot
    simp only [List.map_append, List.map_map, List.mem_append,
      List.map_cons, List.map_nil, List.mem_cons, List.not_mem_nil, or_false]
    have hcomp : (ZipEntry.path ∘ fun n : FileNode =>
        (⟨n.dirs, n.name, n.content, Compression.deflated⟩ : ZipEntry)) =
        FileNode.path := by
      funext n; rfl
    rw [hcomp]
    constructor
    · rintro (rfl | h)
      · exact List.mem_map.mpr ⟨m, hmem, hm⟩
      · obtain ⟨n, hn, rfl⟩ := List.mem_map.mp h
        exact List.mem_map.mpr ⟨n, (List.mem_filter.mp hn).1, rfl⟩
    · intro h
      obtain ⟨n, hn, rfl⟩ := List.mem_map.mp h
      by_cases hr : isRootMimetype n
      · exact Or.inl ((isRootMimetype_iff n).mp hr ▸ rfl)
      · refine Or.inr (List.mem_map.mpr ⟨n, List.mem_filter.mpr ⟨hn, ?_⟩, rfl⟩)
        simp [hr]
  | none =>
    have hall : ∀ n ∈ t, ¬ isRootMimetype n = true :=
      fun n hn => List.find?_eq_none.mp hfind n hn
    have hfilter : t.filter (fun n => !isRootMimetype n) = t :=
      List.filter_eq_self.mpr fun n hn => by simp [hall n hn]
    simp only [List.nil_append, hfilter, List.map_map]
    have hcomp : (ZipEntry.path ∘ fun n : FileNode =>
        (⟨n.dirs, n.name, n.content, Compression.deflated⟩ : ZipEntry)) =
        FileNode.path := by
      funext n; rfl
    rw [hcomp]

/-- **C8.** Entry relative paths are preserved exactly between extraction
and repacking: the repacked archive holds an entry at relative path `p`
exactly when the input archive held one there, and every regular file of
the (walked) scratch tree is written to the output archive under its path
relative to the scratch root. -/
theorem entry_paths_preserved (tf : String → String) (f : Faults)
    (es : List ZipEntry) (p : List String) :
    (p ∈ (packEntries (walk tf f (extractTree es)).tree).map ZipEntry.path ↔
      ∃ e ∈ es, ZipEntry.path e = p) ∧
    (∀ n ∈ (walk tf f (extractTree es)).tree,
      ∃ e2 ∈ packEntries (walk tf f (extractTree es)).tree,
        ZipEntry.path e2 = FileNode.path n) := by
  have htree : (walk tf f (extractTree es)).tree =
      walkTree tf f (extractTree es) := rfl
  constructor
  · rw [htree, mem_paths_packEntries, walkTree_map_path, mem_paths_extractTree]
  · intro n hn
    have : FileNode.path n ∈
        (packEntries (walk tf f (extractTree es)).tree).map ZipEntry.path := by
      rw [htree, mem_paths_packEntries]
      exact List.mem_map.mpr ⟨n, htree ▸ hn, rfl⟩
    obtain ⟨e2, he2, hp2⟩ := List.mem_map.mp this
    exact ⟨e2, he2, hp2⟩

theorem entry_paths_preserved_witness :
    (["style", "a.css"] ∈
        (packEntries (walk clean_css_content noFaults
          (extractTree sampleArchive)).tree).map ZipEntry.path ↔
      ∃ e ∈ sampleArchive, ZipEntry.path e = ["style", "a.css"]) ∧
    (∀ n ∈ (walk clean_css_content noFaults (extractTree sampleArchive)).tree,
      ∃ e2 ∈ packEntries (walk clean_css_content noFaults
          (extractTree sampleArchive)).tree,
        ZipEntry.path e2 = FileNode.path n) :=
  entry_paths_preserved clean_css_content noFaults sampleArchive
    ["style", "a.css"]

/-- **C3.** If the input container holds a reserved entry named `mimetype`
at its root, the repacked output archive has `mimetype` as its first
entry, stored without compression, and every other entry is written with
the default deflate compression. -/
theorem mimetype_first_and_stored (tf : String → String) (f : Faults)
    (es : List ZipEntry)
    (h : ∃ e ∈ es, e.dirs = [] ∧ e.name = "mimetype") :
    ∃ c rest,
      packEntries (walk tf f (extractTree es)).tree =
        ⟨[], "mimetype", c, Compression.stored⟩ :: rest ∧
      ∀ e ∈ rest, e.comp = Compression.deflated := by
  obtain ⟨e, he, hd, hn⟩ := h
  have hp : ["mimetype"] ∈ (walk tf f (extractTree es)).tree.map FileNode.path := by
    show _ ∈ (walkTree tf f (extractTree es)).map FileNode.path
    rw [walkTree_map_path, mem_paths_extractTree]
    exact ⟨e, he, by simp [ZipEntry.path, hd, hn]⟩
  obtain ⟨n, hmem, hpath⟩ := List.mem_map.mp hp
  have hroot : isRootMimetype n = true := (isRootMimetype_iff n).mpr hpath
  have hsome : ((walk tf f (extractTree es)).tree.find? isRootMimetype).isSome := by
    rw [List.find?_isSome]
    exact ⟨n, hmem, hroot⟩
  obtain ⟨m, hfind⟩ := Option.isSome_iff_exists.mp hsome
  refine ⟨m.content,
    ((walk tf f (extractTree es)).tree.filter (fun n => !isRootMimetype n)).map
      (fun n => ⟨n.dirs, n.name, n.content, Compression.deflated⟩), ?_, ?_⟩
  · unfold packEntries
    rw [hfind]
    rfl
  · intro e' he'
    obtain ⟨n', _, rfl⟩ := List.mem_map.mp he'
    rfl

theorem mimetype_first_and_stored_witness :
    ∃ c rest,
      packEntries (walk clean_css_content noFaults (extractTree
          [⟨[], "mimetype", "application/epub+zip", Compression.deflated⟩])).tree =
        ⟨[], "mimetype", c, Compression.stored⟩ :: rest ∧
      ∀ e ∈ rest, e.comp = Compression.deflated :=
  mimetype_first_and_stored clean_css_content noFaults
    [⟨[], "mimetype", "application/epub+zip", Compression.deflated⟩]
    ⟨⟨[], "mimetype", "application/epub+zip", Compression.deflated⟩,
      List.mem_singleton.mpr rfl, rfl, rfl⟩

/-! ## Idempotence of the whole pipeline -/

theorem mem_upsert {acc : List FileNode} {x n : FileNode}
    (h : n ∈ upsert acc x) : n ∈ acc ∨ n = x := by
  unfold upsert at h
  split_ifs at h with hc
  · obtain ⟨m, hm, hmn⟩ := List.mem_map.mp h
    split_ifs at hmn with h2
    · exact Or.inr hmn.symm
    · exact Or.inl (hmn ▸ hm)
  · rcases List.mem_append.mp h with h | h
    · exact Or.inl h
    · exact Or.inr (List.mem_singleton.mp h)

theorem mem_extract_foldl :
    ∀ (es : List ZipEntry) (acc : List FileNode) (n : FileNode),
      n ∈ es.foldl (fun a e => upsert a ⟨e.dirs, e.name, e.data⟩) acc →
      n ∈ acc ∨ ∃ e ∈ es, (⟨e.dirs, e.name, e.data⟩ : FileNode) = n := by
  intro es
  induction es with
  | nil => intro acc n h; exact Or.inl h
  | cons e es ih =>
    intro acc n h
    rw [List.foldl_cons] at h
    rcases ih _ n h with h | ⟨e2, he2, hn⟩
    · rcases mem_upsert h with h | h
      · exact Or.inl h
      · exact Or.inr ⟨e, List.mem_cons_self e es, h.symm⟩
    · exact Or.inr ⟨e2, List.mem_cons_of_mem e he2, hn⟩

theorem mem_extractTree {es : List ZipEntry} {n : FileNode}
    (h : n ∈ extractTree es) :
    ∃ e ∈ es, (⟨e.dirs, e.name, e.data⟩ : FileNode) = n := by
  unfold extractTree at h
  rcases mem_extract_foldl es [] n h with h | h
  · simp at h
  · exact h

theorem mem_packEntries {t : List FileNode} {e : ZipEntry}
    (h : e ∈ packEntries t) :
    e.name = "mimetype" ∨ ∃ n ∈ t, e.name = n.name ∧ e.data = n.content := by
  unfold packEntries at h
  rcases List.mem_append.mp h with h | h
  · split at h
    case _ m heq =>
      have := List.mem_singleton.mp h
      subst this
      exact Or.inl rfl
    case _ => simp at h
  · obtain ⟨n, hn, rfl⟩ := List.mem_map.mp h
    exact Or.inr ⟨n, (List.mem_filter.mp hn).1, rfl, rfl⟩

theorem walkTree_fixed (tf : String → String) (hid : ∀ x, tf (tf x) = tf x)
    (t0 : List FileNode) :
    ∀ m ∈ walkTree tf noFaults t0, isCssName m.name = true →
      tf m.content = m.content := by
  intro m hm hcss
  obtain ⟨n0, hn0, rfl⟩ := List.mem_map.mp hm
  by_cases hcn : isCssName n0.name = true
  · cases hd : (tf n0.content != n0.content) with
    | true => simp [processNode, noFaults, hcn, hd, hid]
    | false =>
      have heq : tf n0.content = n0.content := by
        have hne : ¬ (tf n0.content ≠ n0.content) := by
          rw [← bne_iff_ne]
          simp [hd]
        exact not_ne_iff.mp hne
      simp [processNode, noFaults, hcn, hd, heq]
  · rw [processNode_name] at hcss
    exact absurd hcss hcn

theorem anyModified_extract_pack (tf : String → String)
    (hid : ∀ x, tf (tf x) = tf x) (t0 : List FileNode) :
    anyModified tf noFaults
      (extractTree (packEntries (walkTree tf noFaults t0))) = false := by
  unfold anyModified
  rw [List.any_eq_false]
  intro n hn
  obtain ⟨e, he, hne⟩ := mem_extractTree hn
  rcases mem_packEntries he with hmim | ⟨m, hm, hname, hdata⟩
  · have hnn : n.name = "mimetype" := by rw [← hne]; exact hmim
    have hncss : isCssName n.name = false := by rw [hnn]; decide
    simp [hncss]
  · have hnn : n.name = m.name := by rw [← hne]; exact hname
    have hnc : n.content = m.content := by rw [← hne]; exact hdata
    by_cases hcss : isCssName n.name = true
    · have hfix : tf m.content = m.content :=
        walkTree_fixed tf hid t0 m hm (hnn ▸ hcss)
      have hbne : (tf n.content != n.content) = false := by
        rw [hnc, hfix]
        simp
      simp [hbne]
    · simp [Bool.eq_false_iff.mpr hcss]

theorem runBody_noop (tf : String → String) (f : Faults) (es : List ZipEntry)
    (hx : f.extractErr = false) (hu : f.unexpectedAfterExtract = false)
    (h : cssFound (extractTree es) = false ∨
         anyModified tf f (extractTree es) = false) :
    (runBody tf f (Bytes.zip es)).source = Bytes.zip es := by
  simp only [runBody, hx, hu, walk, Bool.false_eq_true, if_false]
  rcases h with h | h
  · simp [h]
  · by_cases hf : cssFound (extractTree es) <;> simp [hf, h]

theorem runBody_commit (tf : String → String) (f : Faults) (es : List ZipEntry)
    (hx : f.extractErr = false) (hu : f.unexpectedAfterExtract = false)
    (hf : cssFound (extractTree es) = true)
    (hm : anyModified tf f (extractTree es) = true)
    (hp : f.packErr = none) (hup : f.unexpectedAfterPack = false)
    (hmv : f.moveErr = false) :
    (runBody tf f (Bytes.zip es)).source =
      Bytes.zip (packEntries (walkTree tf f (extractTree es))) := by
  simp [runBody, hx, hu, hf, hm, hp, hup, hmv, walk]

/-- **C9.** For every container and every content transform `tf` with
`tf (tf x) = tf x` for all `x`, running the whole fault-free transform
pipeline twice yields the same final container bytes as running it once. -/
theorem pipeline_idempotent (tf : String → String)
    (hid : ∀ x, tf (tf x) = tf x) (src : Bytes) :
    (process_epub_inplace tf noFaults
        (process_epub_inplace tf noFaults src).source).source =
      (process_epub_inplace tf noFaults src).source := by
  cases src with
  | raw b => rfl
  | zip es =>
    by_cases hm : cssFound (extractTree es) = true ∧
        anyModified tf noFaults (extractTree es) = true
    · have h1 : (process_epub_inplace tf noFaults (Bytes.zip es)).source =
          Bytes.zip (packEntries (walkTree tf noFaults (extractTree es))) := by
        show (runBody tf noFaults (Bytes.zip es)).source = _
        exact runBody_commit tf noFaults es rfl rfl hm.1 hm.2 rfl rfl rfl
      rw [h1]
      show (runBody tf noFaults (Bytes.zip _)).source = _
      exact runBody_noop tf noFaults _ rfl rfl
        (Or.inr (anyModified_extract_pack tf hid (extractTree es)))
    · have h' : cssFound (extractTree es) = false ∨
          anyModified tf noFaults (extractTree es) = false := by
        cases hcf : cssFound (extractTree es) with
        | false => exact Or.inl rfl
        | true =>
          cases ham : anyModified tf noFaults (extractTree es) with
          | false => exact Or.inr rfl
          | true => exact absurd ⟨hcf, ham⟩ hm
      have h1 : (process_epub_inplace tf noFaults (Bytes.zip es)).source =
          Bytes.zip es := runBody_noop tf noFaults es rfl rfl h'
      rw [h1]
      exact h1

theorem pipeline_idempotent_witness :
    (process_epub_inplace (fun _ => "") noFaults
        (process_epub_inplace (fun _ => "") noFaults
          (Bytes.zip [⟨[], "a.css", "color:red;", Compression.deflated⟩])).source).source =
      (process_epub_inplace (fun _ => "") noFaults
        (Bytes.zip [⟨[], "a.css", "color:red;", Compression.deflated⟩])).source :=
  pipeline_idempotent (fun _ => "") (fun _ => rfl)
    (Bytes.zip [⟨[], "a.css", "color:red;", Compression.deflated⟩])

/-- **C10.** `clean_css_content` is a pure, total, deterministic function
of its argument that deletes every non-overlapping, case-insensitive match
of the fixed pattern (the `;`-terminated declarations of the six
properties, and `display : block ;` declarations, as scanned by `subAll` /
`matchAt`): it returns the input unchanged exactly when the pattern has no
match in it, and when a match exists the result is strictly shorter. -/
theorem clean_unchanged_iff_no_match (s : String) :
    (clean_css_content s = s ↔ hasMatch s = false) ∧
    (hasMatch s = true → (clean_css_content s).length < s.length) := by
  constructor
  · constructor
    · intro h
      cases hx : hasMatch s with
      | false => rfl
      | true =>
        have hlt := subAll_length_lt s.data hx
        have hdata : (clean_css_content s).data = s.data := by rw [h]
        have : (subAll s.data).length = s.data.length := by
          rw [show (clean_css_content s).data = subAll s.data from rfl] at hdata
          rw [hdata]
        omega
    · intro h
      cases s with
      | mk d =>
        show (⟨subAll d⟩ : String) = ⟨d⟩
        rw [subAll_of_no_match d h]
  · intro h
    show (clean_css_content s).data.length < s.data.length
    exact subAll_length_lt s.data h

theorem clean_unchanged_iff_no_match_witness :
    (clean_css_content "color:red;" = "color:red;" ↔
      hasMatch "color:red;" = false) ∧
    (clean_css_content "color:red;").length < ("color:red;" : String).length :=
  ⟨(clean_unchanged_iff_no_match "color:red;").1,
   (clean_unchanged_iff_no_match "color:red;").2 (by decide)⟩

end CleanEpubCss
